import Mathlib

/-!
Verification of the impact computation and composition pipeline of
src/data/food/export_agb/export_builder.py.

The script builds a dict of processes from an activities file, computes a raw
impact vector per process through the LCA engine, derives the impact of
complex ingredients from their subingredients with a ratio-weighted formula,
and folds groups of sub-indicators into reported indicators through the
correction rules of impacts.json.

Modelling choices, stated once here:
  - a Python dict with string keys is an insertion-ordered association list
    (every dict the script builds has unique keys);
  - the LCA engine (bw2calc) is opaque and becomes a score function
    `String → String → ℚ` from a process search key and a method key to the
    already-rounded float score; float arithmetic of the script is modelled
    over ℚ;
  - the bare `except: import pdb; pdb.set_trace()` of the complex-ingredient
    loop and the `assert` over complex attributes are the two observable
    failure modes; reaching the interactive debugger is modelled as the
    terminal error `RunError.debuggerBreak`;
  - descriptive metadata fields of a process (name, unit, identifier,
    system_description, category_tags, comment) and the ingredient-list
    export are not modelled: no impact computation reads them. The
    bookkeeping field `search` is kept in the record instead of being
    deleted at the end of the loop; nothing reads it afterwards.
-/

namespace ExportBuilder

/-- Python dict with string keys: an insertion-ordered association list. -/
abbrev Dict (α : Type) := List (String × α)

/-- Python `d[k]` as an optional lookup (a missing key is a KeyError at the
call site). -/
def dget {α : Type} : Dict α → String → Option α
  | [], _ => none
  | (k, v) :: rest, s => if s = k then some v else dget rest s

/-- Python `d[k] = v`: update the value in place when the key exists, append
the pair otherwise. -/
def dset {α : Type} : Dict α → String → α → Dict α
  | [], s, w => [(s, w)]
  | (k, v) :: rest, s, w => if s = k then (k, w) :: rest else (k, v) :: dset rest s w

/-- Python `del d[k]` (every call site guards it with a membership test). -/
def ddel {α : Type} : Dict α → String → Dict α
  | [], _ => []
  | (k, v) :: rest, s => if s = k then rest else (k, v) :: ddel rest s

/-- Python `k in d`. -/
def dmem {α : Type} (d : Dict α) (s : String) : Bool := (dget d s).isSome

/-- Python `d.get(k, dflt)`. -/
def dgetD {α : Type} (d : Dict α) (s : String) (dflt : α) : α := (dget d s).getD dflt

theorem dget_eq_none_of_not_mem {α : Type} (d : Dict α) (s : String)
    (h : s ∉ d.map Prod.fst) : dget d s = none := by
  induction d with
  | nil => rfl
  | cons hd tl ih =>
    obtain ⟨k0, v0⟩ := hd
    simp only [List.map_cons, List.mem_cons, not_or] at h
    simp [dget, h.1, ih h.2]

theorem dget_dset {α : Type} (d : Dict α) (k s : String) (v : α) :
    dget (dset d k v) s = if s = k then some v else dget d s := by
  induction d with
  | nil => by_cases h : s = k <;> simp [dset, dget, h]
  | cons hd tl ih =>
    obtain ⟨k0, v0⟩ := hd
    by_cases hk : k = k0
    · subst hk
      by_cases hs : s = k <;> simp [dset, dget, hs]
    · by_cases hs : s = k0
      · have hsk : ¬ s = k := fun h => hk (h.symm.trans hs)
        have hk0 : ¬ k0 = k := fun h => hk h.symm
        simp [dset, dget, hk, hs, hsk, hk0]
      · simp [dset, dget, hk, hs, ih]

theorem dget_ddel {α : Type} (d : Dict α) (k s : String)
    (hnd : (d.map Prod.fst).Nodup) :
    dget (ddel d k) s = if s = k then none else dget d s := by
  induction d with
  | nil => by_cases h : s = k <;> simp [ddel, dget, h]
  | cons hd tl ih =>
    obtain ⟨k0, v0⟩ := hd
    simp only [List.map_cons, List.nodup_cons] at hnd
    by_cases hk : k = k0
    · subst hk
      by_cases hs : s = k
      · subst hs
        simp [ddel, dget, dget_eq_none_of_not_mem tl s hnd.1]
      · simp [ddel, dget, hs]
    · by_cases hs : s = k0
      · have hsk : ¬ s = k := fun h => hk (h.symm.trans hs)
        have hk0 : ¬ k0 = k := fun h => hk h.symm
        simp [ddel, dget, hk, hs, hsk, hk0]
      · simp [ddel, dget, hk, hs, ih hnd.2]

theorem dmem_eq_isSome {α : Type} (d : Dict α) (s : String) :
    dmem d s = (dget d s).isSome := rfl

theorem dget_mem {α : Type} (d : Dict α) (s : String) (v : α)
    (h : dget d s = some v) : (s, v) ∈ d := by
  induction d with
  | nil => simp [dget] at h
  | cons hd tl ih =>
    obtain ⟨k0, v0⟩ := hd
    by_cases hs : s = k0
    · subst hs
      simp [dget] at h
      simp [h]
    · simp [dget, hs] at h
      exact List.mem_cons_of_mem _ (ih h)

theorem mem_keys_dset {α : Type} (d : Dict α) (k s : String) (v : α) :
    s ∈ (dset d k v).map Prod.fst ↔ s = k ∨ s ∈ d.map Prod.fst := by
  induction d with
  | nil => simp [dset]
  | cons hd tl ih =>
    obtain ⟨k0, v0⟩ := hd
    by_cases hk : k = k0
    · subst hk
      simp [dset]
    · simp [dset, hk, ih]
      tauto

theorem keys_dset_nodup {α : Type} (d : Dict α) (k : String) (v : α)
    (h : (d.map Prod.fst).Nodup) : ((dset d k v).map Prod.fst).Nodup := by
  induction d with
  | nil => simp [dset]
  | cons hd tl ih =>
    obtain ⟨k0, v0⟩ := hd
    simp only [List.map_cons, List.nodup_cons] at h
    by_cases hk : k = k0
    · subst hk
      have hrw : dset ((k, v0) :: tl) k v = (k, v) :: tl := by simp [dset]
      rw [hrw]
      simp only [List.map_cons, List.nodup_cons]
      exact ⟨h.1, h.2⟩
    · simp only [dset, if_neg hk, List.map_cons, List.nodup_cons]
      refine ⟨?_, ih h.2⟩
      rw [mem_keys_dset]
      push_neg
      exact ⟨fun hh => hk hh.symm, h.1⟩

/-! Correction Applier: lines 192–203 of export_builder.py.  The rule set is
the `corrections` dict (reported indicator → list of correction items); a
Python dict iterates in insertion order, so it is modelled as a list of
pairs whose first components are distinct in any state the script reaches. -/

/-- An impact vector: indicator code → score. -/
abbrev Imp := Dict ℚ

/-- One entry of a correction list: a sub-impact name and its weighting. -/
structure CorrectionItem where
  sub_impact : String
  weighting : ℚ
deriving DecidableEq

/-- Inner loop, lines 197–202: fold the correction items over the evolving
impacts dict, accumulating corrected_impact in acc; a present sub-impact is
read (with the fallback dflt of dict.get, 1 in the source), weighted, added,
and deleted from the dict. -/
def applyRule (dflt : ℚ) (acc : ℚ) (imp : Imp) : List CorrectionItem → ℚ × Imp
  | [] => (acc, imp)
  | item :: rest =>
    if dmem imp item.sub_impact then
      applyRule dflt (acc + dgetD imp item.sub_impact dflt * item.weighting)
        (ddel imp item.sub_impact) rest
    else
      applyRule dflt acc imp rest

/-- Outer loop, lines 195–203: each reported indicator is computed from the
current impacts dict and written into it. -/
def applyCorrectionsD (dflt : ℚ) (imp : Imp) :
    List (String × List CorrectionItem) → Imp
  | [] => imp
  | (r, rule) :: rest =>
    let p := applyRule dflt 0 imp rule
    applyCorrectionsD dflt (dset p.2 r p.1) rest

/-- The Correction Applier as the source runs it: the dict.get fallback is 1. -/
def applyCorrections (imp : Imp) (rules : List (String × List CorrectionItem)) : Imp :=
  applyCorrectionsD 1 imp rules

/-- Modelled from the spec: `corrected[r] = Σ wi * raw[si]` over every si
present in raw, a missing sub-indicator contributing 0.  This is the spec's
formula over the original raw vector, to be compared with what the source
computes over its evolving dict. -/
def specRuleSum (raw : Imp) : List CorrectionItem → ℚ
  | [] => 0
  | item :: rest =>
    (match dget raw item.sub_impact with
      | some v => item.weighting * v
      | none => 0) + specRuleSum raw rest

/-- The sub-impact names consumed by one correction list. -/
def subsOf (rule : List CorrectionItem) : List String := rule.map CorrectionItem.sub_impact

/-- Every sub-impact name consumed by any rule of the set. -/
def allSubs (rules : List (String × List CorrectionItem)) : List String :=
  rules.flatMap fun p => subsOf p.2

/-- The reported indicators written by the rule set. -/
def reportedOf (rules : List (String × List CorrectionItem)) : List String :=
  rules.map Prod.fst

theorem allSubs_cons (r : String) (rule : List CorrectionItem)
    (rest : List (String × List CorrectionItem)) :
    allSubs ((r, rule) :: rest) = subsOf rule ++ allSubs rest := by
  simp [allSubs]

/-- The dict.get fallback never matters: the branch is guarded by the
membership test, where the lookup is a some. -/
theorem applyRule_dflt_irrel (rule : List CorrectionItem) :
    ∀ dflt dflt2 acc imp,
      applyRule dflt acc imp rule = applyRule dflt2 acc imp rule := by
  induction rule with
  | nil => intro dflt dflt2 acc imp; rfl
  | cons item rest ih =>
    intro dflt dflt2 acc imp
    by_cases h : dmem imp item.sub_impact
    · rw [dmem_eq_isSome] at h
      obtain ⟨v, hv⟩ := Option.isSome_iff_exists.mp h
      simp only [applyRule, dmem_eq_isSome, hv, Option.isSome_some, if_pos, dgetD,
        Option.getD_some]
      exact ih dflt dflt2 _ _
    · simp only [applyRule, if_neg h]
      exact ih dflt dflt2 acc imp

/-- Deleting a key never makes another lookup succeed. -/
theorem dget_ddel_none {α : Type} (d : Dict α) (k s : String)
    (h : dget d s = none) : dget (ddel d k) s = none := by
  induction d with
  | nil => rfl
  | cons hd tl ih =>
    obtain ⟨k0, v0⟩ := hd
    by_cases hs : s = k0
    · subst hs; simp [dget] at h
    · simp only [dget, if_neg hs] at h
      by_cases hk : k = k0
      · simpa [ddel, hk] using h
      · simp [ddel, hk, dget, hs, ih h]

/-- applyRule never adds a key. -/
theorem applyRule_dget_none (rule : List CorrectionItem) :
    ∀ dflt acc imp s, dget imp s = none →
      dget (applyRule dflt acc imp rule).2 s = none := by
  induction rule with
  | nil => intro dflt acc imp s h; exact h
  | cons item rest ih =>
    intro dflt acc imp s h
    by_cases hm : dmem imp item.sub_impact
    · simp only [applyRule, hm, ite_true]
      exact ih dflt _ _ s (dget_ddel_none imp item.sub_impact s h)
    · simp only [applyRule, hm, ite_false]
      exact ih dflt acc imp s h

/-- Deleting one key leaves every other lookup unchanged. -/
theorem dget_ddel_ne {α : Type} (d : Dict α) (k s : String) (h : ¬ s = k) :
    dget (ddel d k) s = dget d s := by
  induction d with
  | nil => rfl
  | cons hd tl ih =>
    obtain ⟨k0, v0⟩ := hd
    by_cases hk : k = k0
    · subst hk
      simp [ddel, dget, h]
    · by_cases hs : s = k0 <;> simp [ddel, dget, hk, hs, ih]

/-- ddel keeps a sublist of the original pairs. -/
theorem ddel_sublist {α : Type} (d : Dict α) (k : String) : (ddel d k).Sublist d := by
  induction d with
  | nil => simp [ddel]
  | cons hd tl ih =>
    obtain ⟨k0, v0⟩ := hd
    by_cases hk : k = k0
    · simp only [ddel, if_pos hk]
      exact List.sublist_cons_self _ _
    · simp only [ddel, if_neg hk]
      exact ih.cons₂ _

theorem keys_ddel_nodup {α : Type} (d : Dict α) (k : String)
    (h : (d.map Prod.fst).Nodup) : ((ddel d k).map Prod.fst).Nodup :=
  h.sublist ((ddel_sublist d k).map Prod.fst)

/-- The dict applyRule leaves is a sublist of the one it was given. -/
theorem applyRule_sublist (rule : List CorrectionItem) :
    ∀ dflt acc imp, (applyRule dflt acc imp rule).2.Sublist imp := by
  induction rule with
  | nil => intro dflt acc imp; exact List.Sublist.refl _
  | cons item rest ih =>
    intro dflt acc imp
    by_cases hm : dmem imp item.sub_impact
    · simp only [applyRule, hm, ite_true]
      exact ((ih dflt _ _).trans (ddel_sublist imp item.sub_impact))
    · simp only [applyRule, hm, ite_false]
      exact ih dflt acc imp

theorem applyRule_keys_nodup (rule : List CorrectionItem) (dflt acc : ℚ) (imp : Imp)
    (h : (imp.map Prod.fst).Nodup) :
    ((applyRule dflt acc imp rule).2.map Prod.fst).Nodup :=
  h.sublist ((applyRule_sublist rule dflt acc imp).map Prod.fst)

/-- A sub-impact listed in the rule is absent from the dict the rule leaves. -/
theorem applyRule_removes (rule : List CorrectionItem) :
    ∀ dflt acc imp s, (imp.map Prod.fst).Nodup → s ∈ subsOf rule →
      dget (applyRule dflt acc imp rule).2 s = none := by
  induction rule with
  | nil => intro _ _ _ _ _ h; simp [subsOf] at h
  | cons item rest ih =>
    intro dflt acc imp s hnd hs
    simp only [subsOf, List.map_cons, List.mem_cons] at hs
    by_cases hm : dmem imp item.sub_impact
    · simp only [applyRule, hm, ite_true]
      rcases hs with hs | hs
      · subst hs
        refine applyRule_dget_none rest dflt _ _ item.sub_impact ?_
        simp [dget_ddel imp item.sub_impact item.sub_impact hnd]
      · exact ih dflt _ _ s (keys_ddel_nodup imp _ hnd) hs
    · simp only [applyRule, hm, ite_false]
      rcases hs with hs | hs
      · subst hs
        refine applyRule_dget_none rest dflt _ _ item.sub_impact ?_
        simp [dmem] at hm
        exact hm
      · exact ih dflt acc imp s hnd hs

/-- A name not listed in the rule keeps its binding. -/
theorem applyRule_preserves (rule : List CorrectionItem) :
    ∀ dflt acc imp s, s ∉ subsOf rule →
      dget (applyRule dflt acc imp rule).2 s = dget imp s := by
  induction rule with
  | nil => intro _ _ _ _ _; rfl
  | cons item rest ih =>
    intro dflt acc imp s hs
    simp only [subsOf, List.map_cons, List.mem_cons, not_or] at hs
    by_cases hm : dmem imp item.sub_impact
    · simp only [applyRule, hm, ite_true]
      rw [ih dflt _ _ s hs.2]
      exact dget_ddel_ne imp item.sub_impact s hs.1
    · simp only [applyRule, hm, ite_false]
      exact ih dflt acc imp s hs.2

/-- The spec sum only reads the bindings of the listed sub-impacts. -/
theorem specRuleSum_congr (rule : List CorrectionItem) (m1 m2 : Imp)
    (h : ∀ t ∈ subsOf rule, dget m1 t = dget m2 t) :
    specRuleSum m1 rule = specRuleSum m2 rule := by
  induction rule with
  | nil => rfl
  | cons item rest ih =>
    have hhd : dget m1 item.sub_impact = dget m2 item.sub_impact :=
      h item.sub_impact (by simp [subsOf])
    have htl : specRuleSum m1 rest = specRuleSum m2 rest :=
      ih (fun t ht => h t (by simp [subsOf] at ht ⊢; exact Or.inr ht))
    simp [specRuleSum, hhd, htl]

/-- Over a rule with distinct sub-impacts the inner loop accumulates exactly
the spec's weighted sum over the dict it started from. -/
theorem applyRule_fst (rule : List CorrectionItem) :
    ∀ dflt acc imp, (subsOf rule).Nodup →
      (applyRule dflt acc imp rule).1 = acc + specRuleSum imp rule := by
  induction rule with
  | nil => intro dflt acc imp _; simp [applyRule, specRuleSum]
  | cons item rest ih =>
    intro dflt acc imp hnd
    simp only [subsOf, List.map_cons, List.nodup_cons] at hnd
    by_cases hm : dmem imp item.sub_impact
    · rw [dmem_eq_isSome] at hm
      obtain ⟨v, hv⟩ := Option.isSome_iff_exists.mp hm
      simp only [applyRule, dmem_eq_isSome, hv, Option.isSome_some, ite_true]
      rw [ih dflt _ _ hnd.2]
      have hcongr : specRuleSum (ddel imp item.sub_impact) rest = specRuleSum imp rest :=
        specRuleSum_congr rest _ _
          (fun t ht => dget_ddel_ne imp item.sub_impact t
            (fun he => hnd.1 (he ▸ ht)))
      rw [hcongr]
      simp only [dgetD, hv, Option.getD_some, specRuleSum, hv]
      ring
    · have hv : dget imp item.sub_impact = none := by
        simp [dmem] at hm
        exact hm
      simp only [applyRule, dmem, hv, Option.isSome_none, Bool.false_eq_true, ite_false]
      rw [ih dflt acc imp hnd.2]
      simp [specRuleSum, hv]

theorem subsOf_subset_allSubs (rules : List (String × List CorrectionItem))
    (r : String) (rule : List CorrectionItem) (h : (r, rule) ∈ rules) :
    ∀ t ∈ subsOf rule, t ∈ allSubs rules := by
  intro t ht
  simp only [allSubs, List.mem_flatMap]
  exact ⟨(r, rule), h, ht⟩

/-- The whole correction step never reads the dict.get fallback. -/
theorem applyCorrectionsD_dflt_irrel (rules : List (String × List CorrectionItem)) :
    ∀ dflt dflt2 imp, applyCorrectionsD dflt imp rules = applyCorrectionsD dflt2 imp rules := by
  induction rules with
  | nil => intro _ _ _; rfl
  | cons hd rest ih =>
    obtain ⟨r, rule⟩ := hd
    intro dflt dflt2 imp
    simp only [applyCorrectionsD]
    rw [applyRule_dflt_irrel rule dflt dflt2 0 imp]
    exact ih dflt dflt2 _

/-- Corrections only ever add reported indicators. -/
theorem applyCorrectionsD_none (rules : List (String × List CorrectionItem)) :
    ∀ dflt imp s, s ∉ reportedOf rules → dget imp s = none →
      dget (applyCorrectionsD dflt imp rules) s = none := by
  induction rules with
  | nil => intro _ _ _ _ h; exact h
  | cons hd rest ih =>
    obtain ⟨r, rule⟩ := hd
    intro dflt imp s hrep h
    simp only [reportedOf, List.map_cons, List.mem_cons, not_or] at hrep
    simp only [applyCorrectionsD]
    refine ih dflt _ s (by simpa [reportedOf] using hrep.2) ?_
    rw [dget_dset]
    simp only [if_neg hrep.1]
    exact applyRule_dget_none rule dflt 0 imp s h

/-- An indicator neither consumed nor reported by any rule keeps its binding. -/
theorem applyCorrectionsD_preserve (rules : List (String × List CorrectionItem)) :
    ∀ dflt imp s, s ∉ reportedOf rules → s ∉ allSubs rules →
      dget (applyCorrectionsD dflt imp rules) s = dget imp s := by
  induction rules with
  | nil => intro _ _ _ _ _; rfl
  | cons hd rest ih =>
    obtain ⟨r, rule⟩ := hd
    intro dflt imp s hrep hsub
    simp only [reportedOf, List.map_cons, List.mem_cons, not_or] at hrep
    rw [allSubs_cons] at hsub
    simp only [List.mem_append, not_or] at hsub
    simp only [applyCorrectionsD]
    rw [ih dflt _ s (by simpa [reportedOf] using hrep.2) hsub.2]
    rw [dget_dset]
    simp only [if_neg hrep.1]
    exact applyRule_preserves rule dflt 0 imp s hsub.1

/-- A sub-indicator consumed by some rule and reported by none is absent from
the corrected dict. -/
theorem applyCorrectionsD_subgone (rules : List (String × List CorrectionItem)) :
    ∀ dflt imp s, (imp.map Prod.fst).Nodup → s ∈ allSubs rules →
      s ∉ reportedOf rules → dget (applyCorrectionsD dflt imp rules) s = none := by
  induction rules with
  | nil => intro _ _ _ _ h _; simp [allSubs] at h
  | cons hd rest ih =>
    obtain ⟨r, rule⟩ := hd
    intro dflt imp s hnd hsub hrep
    simp only [reportedOf, List.map_cons, List.mem_cons, not_or] at hrep
    rw [allSubs_cons] at hsub
    simp only [applyCorrectionsD]
    rcases List.mem_append.mp hsub with hs | hs
    · refine applyCorrectionsD_none rest dflt _ s (by simpa [reportedOf] using hrep.2) ?_
      rw [dget_dset]
      simp only [if_neg hrep.1]
      exact applyRule_removes rule dflt 0 imp s hnd hs
    · refine ih dflt _ s ?_ hs (by simpa [reportedOf] using hrep.2)
      exact keys_dset_nodup _ _ _ (applyRule_keys_nodup rule dflt 0 imp hnd)

/-- Under a rule set whose sub-indicators are globally distinct, whose reported
indicators are distinct, and where no reported indicator is itself consumed,
every reported indicator ends up bound to the spec's weighted sum over the
dict the corrections started from. -/
theorem applyCorrectionsD_reported (rules : List (String × List CorrectionItem)) :
    ∀ dflt imp r rule, (imp.map Prod.fst).Nodup → (r, rule) ∈ rules →
      (allSubs rules).Nodup → (reportedOf rules).Nodup →
      (∀ x ∈ reportedOf rules, x ∉ allSubs rules) →
      dget (applyCorrectionsD dflt imp rules) r = some (specRuleSum imp rule) := by
  induction rules with
  | nil => intro _ _ _ _ _ h _ _ _; simp at h
  | cons hd rest ih =>
    obtain ⟨r0, rule0⟩ := hd
    intro dflt imp r rule hnd hmem hsubnd hrepnd hdisj
    rw [allSubs_cons] at hsubnd
    rw [List.nodup_append] at hsubnd
    simp only [reportedOf, List.map_cons, List.nodup_cons] at hrepnd
    have hr0sub : r0 ∉ allSubs ((r0, rule0) :: rest) :=
      hdisj r0 (by simp [reportedOf])
    rw [allSubs_cons] at hr0sub
    simp only [List.mem_append, not_or] at hr0sub
    simp only [applyCorrectionsD]
    rcases List.mem_cons.mp hmem with heq | hmem2
    · obtain ⟨he1, he2⟩ := Prod.mk.injEq .. ▸ heq
      subst he1
      subst he2
      rw [applyCorrectionsD_preserve rest dflt _ r
        (by simpa [reportedOf] using hrepnd.1) hr0sub.2]
      rw [dget_dset]
      simp [applyRule_fst rule dflt 0 imp hsubnd.1]
    · have hsum : specRuleSum (dset (applyRule dflt 0 imp rule0).2 r0
          (applyRule dflt 0 imp rule0).1) rule = specRuleSum imp rule := by
        refine specRuleSum_congr rule _ _ ?_
        intro t ht
        have htrest : t ∈ allSubs rest := subsOf_subset_allSubs rest r rule hmem2 t ht
        have htr0 : ¬ t = r0 := fun he => hr0sub.2 (he ▸ htrest)
        rw [dget_dset]
        simp only [if_neg htr0]
        refine applyRule_preserves rule0 dflt 0 imp t ?_
        intro hc
        exact (List.disjoint_left.mp hsubnd.2.2) hc htrest
      rw [← hsum]
      refine ih dflt _ r rule ?_ hmem2 hsubnd.2.1
        (by simpa [reportedOf] using hrepnd.2) ?_
      · exact keys_dset_nodup _ _ _ (applyRule_keys_nodup rule0 dflt 0 imp hnd)
      · intro x hx
        have hx2 : x ∈ reportedOf ((r0, rule0) :: rest) := by
          simp [reportedOf] at hx ⊢
          exact Or.inr hx
        have := hdisj x hx2
        rw [allSubs_cons] at this
        simp only [List.mem_append, not_or] at this
        exact this.2

/-- C10: the fallback 1 in process impacts .get(sub_impact_name, 1) is
unreachable: the lookup only executes under the preceding membership test, so
the corrected output is the same whatever fallback replaces the constant. -/
theorem c10_fallback_irrelevant (dflt : ℚ) (imp : Imp)
    (rules : List (String × List CorrectionItem)) :
    applyCorrectionsD dflt imp rules = applyCorrections imp rules :=
  applyCorrectionsD_dflt_irrel rules dflt 1 imp

/-- C2 counterexample: two rules consuming the same sub-indicator s.  The
first rule deletes s, so the second one reports 0, not the spec's weighted
sum over the original raw vector (which is 5). -/
theorem c2_counterexample :
    dget (applyCorrections [("s", 5)] [("r1", [⟨"s", 1⟩]), ("r2", [⟨"s", 1⟩])]) "r2"
      ≠ some (specRuleSum [("s", 5)] [⟨"s", 1⟩]) := by with_unfolding_all decide

/-- C2 (amended): corrected[r] = Σ wi * raw[si] over the si present in raw,
missing sub-indicators contributing 0, holds provided no sub-indicator is
listed twice (within or across rules), reported indicators are distinct, and
no reported indicator is itself consumed as a sub-indicator; without those
conditions the in-place deletions make later occurrences contribute 0. -/
theorem c2_corrected_weighted_sum (imp : Imp)
    (rules : List (String × List CorrectionItem)) (r : String)
    (rule : List CorrectionItem)
    (himp : (imp.map Prod.fst).Nodup)
    (hmem : (r, rule) ∈ rules)
    (hsub : (allSubs rules).Nodup)
    (hrep : (reportedOf rules).Nodup)
    (hdisj : ∀ x ∈ reportedOf rules, x ∉ allSubs rules) :
    dget (applyCorrections imp rules) r = some (specRuleSum imp rule) :=
  applyCorrectionsD_reported rules 1 imp r rule himp hmem hsub hrep hdisj

/-- C2 witness: end-to-end scenario 2 of the spec, climate = co2 + 25 * ch4. -/
theorem c2_witness :
    dget (applyCorrections [("co2", 2), ("ch4", 1/10)]
        [("climate", [⟨"co2", 1⟩, ⟨"ch4", 25⟩])]) "climate"
      = some (specRuleSum [("co2", 2), ("ch4", 1/10)] [⟨"co2", 1⟩, ⟨"ch4", 25⟩]) :=
  c2_corrected_weighted_sum _ _ _ _ (by decide) (by decide) (by decide) (by decide)
    (by decide)

/-- C6 counterexample: when a later rule reports an indicator named like a
sub-indicator consumed by an earlier rule, the consumed name reappears in the
output, so the corrected vector does contain a consumed sub-indicator. -/
theorem c6_counterexample :
    dmem (applyCorrections [("s", 5), ("t", 3)]
        [("r", [⟨"s", 1⟩]), ("s", [⟨"t", 1⟩])]) "s" = true
    ∧ "s" ∈ allSubs [("r", [⟨"s", 1⟩]), ("s", [⟨"t", 1⟩])]
    ∧ dmem [("s", 5), ("t", 3)] "s" = true := by with_unfolding_all decide

/-- C6 (amended): provided no reported indicator is itself a sub-indicator of
some rule, the corrected vector contains no consumed sub-indicator, and every
indicator mentioned by no rule (neither consumed nor reported) keeps its raw
binding; a reported indicator named like a consumed sub-indicator would
re-introduce it. -/
theorem c6_frame_conditions (imp : Imp)
    (rules : List (String × List CorrectionItem))
    (himp : (imp.map Prod.fst).Nodup)
    (hdisj : ∀ x ∈ reportedOf rules, x ∉ allSubs rules) :
    (∀ s ∈ allSubs rules, dget (applyCorrections imp rules) s = none)
    ∧ ∀ k, k ∉ allSubs rules → k ∉ reportedOf rules →
        dget (applyCorrections imp rules) k = dget imp k := by
  constructor
  · intro s hs
    refine applyCorrectionsD_subgone rules 1 imp s himp hs ?_
    intro hrep
    exact hdisj s hrep hs
  · intro k h1 h2
    exact applyCorrectionsD_preserve rules 1 imp k h2 h1

/-- C6 witness: the climate rule removes co2 and leaves an unmentioned
indicator untouched. -/
theorem c6_witness :
    dget (applyCorrections [("co2", 2), ("ch4", 1/10), ("other", 7)]
        [("climate", [⟨"co2", 1⟩, ⟨"ch4", 25⟩])]) "co2" = none
    ∧ dget (applyCorrections [("co2", 2), ("ch4", 1/10), ("other", 7)]
        [("climate", [⟨"co2", 1⟩, ⟨"ch4", 25⟩])]) "other"
      = dget [("co2", 2), ("ch4", 1/10), ("other", 7)] "other" :=
  ⟨(c6_frame_conditions _ _ (by decide) (by decide)).1 "co2" (by decide),
   (c6_frame_conditions _ _ (by decide) (by decide)).2 "other" (by decide) (by decide)⟩

/-- C7 counterexample: two rules sharing a sub-indicator give different
corrected vectors under the two orderings, though one is a permutation of
the other. -/
theorem c7_counterexample :
    ([("r1", [⟨"s", 1⟩]), ("r2", [⟨"s", 1⟩])] :
        List (String × List CorrectionItem)).Perm
      [("r2", [⟨"s", 1⟩]), ("r1", [⟨"s", 1⟩])]
    ∧ dget (applyCorrections [("s", 5)]
        [("r1", [⟨"s", 1⟩]), ("r2", [⟨"s", 1⟩])]) "r1"
      ≠ dget (applyCorrections [("s", 5)]
        [("r2", [⟨"s", 1⟩]), ("r1", [⟨"s", 1⟩])]) "r1" := by with_unfolding_all decide

/-- C7 (amended): the Correction Applier is order-independent across rules
when no sub-indicator is shared between rules, reported indicators are
distinct and none of them is consumed: any two orderings of the rule set give
pointwise equal corrected vectors.  Rules that share a sub-indicator (or
report a consumed name) interact through the evolving dict and the claim
fails for them. -/
theorem c7_order_invariance (imp : Imp)
    (rules1 rules2 : List (String × List CorrectionItem))
    (himp : (imp.map Prod.fst).Nodup)
    (hperm : rules1.Perm rules2)
    (hsub : (allSubs rules1).Nodup)
    (hrep : (reportedOf rules1).Nodup)
    (hdisj : ∀ x ∈ reportedOf rules1, x ∉ allSubs rules1) :
    ∀ k, dget (applyCorrections imp rules1) k = dget (applyCorrections imp rules2) k := by
  have hpermSub : (allSubs rules1).Perm (allSubs rules2) := hperm.flatMap_right _
  have hpermRep : (reportedOf rules1).Perm (reportedOf rules2) := hperm.map _
  have hsub2 : (allSubs rules2).Nodup := hpermSub.nodup_iff.mp hsub
  have hrep2 : (reportedOf rules2).Nodup := hpermRep.nodup_iff.mp hrep
  have hdisj2 : ∀ x ∈ reportedOf rules2, x ∉ allSubs rules2 := by
    intro x hx hall
    exact hdisj x (hpermRep.mem_iff.mpr hx) (hpermSub.mem_iff.mpr hall)
  intro k
  simp only [applyCorrections]
  by_cases hk : k ∈ reportedOf rules1
  · obtain ⟨p, hp, hpk⟩ := List.mem_map.mp hk
    obtain ⟨r0, rule0⟩ := p
    subst hpk
    rw [applyCorrectionsD_reported rules1 1 imp r0 rule0 himp hp hsub hrep hdisj]
    rw [applyCorrectionsD_reported rules2 1 imp r0 rule0 himp
      (hperm.subset hp) hsub2 hrep2 hdisj2]
  · by_cases hks : k ∈ allSubs rules1
    · rw [applyCorrectionsD_subgone rules1 1 imp k himp hks hk]
      rw [applyCorrectionsD_subgone rules2 1 imp k himp
        (hpermSub.mem_iff.mp hks) (fun h => hk (hpermRep.mem_iff.mpr h))]
    · rw [applyCorrectionsD_preserve rules1 1 imp k hk hks]
      rw [applyCorrectionsD_preserve rules2 1 imp k
        (fun h => hk (hpermRep.mem_iff.mpr h))
        (fun h => hks (hpermSub.mem_iff.mpr h))]

/-- C7 witness: two disjoint rules applied in either order agree at a
reported indicator. -/
theorem c7_witness :
    dget (applyCorrections [("co2", 1), ("ch4", 4)]
        [("a", [⟨"co2", 2⟩]), ("b", [⟨"ch4", 3⟩])]) "a"
      = dget (applyCorrections [("co2", 1), ("ch4", 4)]
        [("b", [⟨"ch4", 3⟩]), ("a", [⟨"co2", 2⟩])]) "a" :=
  c7_order_invariance _ _ _ (by decide) (by decide) (by decide) (by decide)
    (by decide) "a"

/-! Impact Vector Source and the builder pipeline: lines 30–48 and 58–190. -/

/-- Per-method LCA loop (lines 36–39 inside compute_impacts, lines 149–152
inside the main loop): one dset per key of impacts_definition, the engine
score coming from the opaque score function. -/
def fillImpacts (score : String → ℚ) (keys : List String) (imp : Imp) : Imp :=
  keys.foldl (fun m k => dset m k (score k)) imp

/-- compute_impacts, lines 30–48: the per-method loop followed by the static
twin-indicator decomposition (etf-o = etf-o1 + etf-o2, etf = etf1 + etf2,
the four source codes deleted); a missing source code is an uncaught
KeyError, modelled as none. -/
def compute_impacts (score : String → ℚ) (keys : List String) : Option Imp :=
  let impacts := fillImpacts score keys []
  match dget impacts "etf-o1", dget impacts "etf-o2" with
  | some a, some b =>
    let impacts2 := ddel (ddel (dset impacts "etf-o" (a + b)) "etf-o1") "etf-o2"
    match dget impacts2 "etf1", dget impacts2 "etf2" with
    | some c, some d => some (ddel (ddel (dset impacts2 "etf" (c + d)) "etf1") "etf2")
    | _, _ => none
  | _, _ => none

/-- One record of activities.json, restricted to the fields the pipeline
computes with: the id, the search key handed to the engine, and the three
optional complex-ingredient attributes read with activity.get. -/
structure Activity where
  id : String
  search : String
  ratio : Option ℚ
  subingredient_default : Option String
  subingredient_variant : Option String
deriving DecidableEq

/-- One value of the builder dict (lines 91–105), restricted to the fields
the impact computation reads; a deleted optional attribute is none. -/
structure Proc where
  search : String
  ratio : Option ℚ
  subingredient_default : Option String
  subingredient_variant : Option String
  impacts : Imp
deriving DecidableEq

/-- The builder dict: process id → process. -/
abbrev Builder := Dict Proc

/-- Lines 90–107: the dict comprehension keyed by activity id.  As in a
Python dict comprehension, a later record with the same id silently
overwrites the earlier one. -/
def buildBuilder (acts : List Activity) : Builder :=
  acts.foldl
    (fun b a =>
      dset b a.id
        ⟨a.search, a.ratio, a.subingredient_default, a.subingredient_variant, []⟩)
    []

/-- Python falsiness of the optional ratio at line 110: absent (None) or 0. -/
def falsyRatio : Option ℚ → Bool
  | none => true
  | some r => r == 0

/-- Lines 108–113: del the three complex attributes when the ratio is falsy. -/
def stripSimple (p : Proc) : Proc :=
  if falsyRatio p.ratio then
    { p with ratio := none, subingredient_default := none, subingredient_variant := none }
  else p

def cleanupBuilder (b : Builder) : Builder :=
  b.map fun kv => (kv.1, stripSimple kv.2)

/-- Lines 116–132: a record carrying any of the three complex attributes must
carry all three, else the assert fires. -/
def complexAttrsOk (a : Activity) : Bool :=
  !(a.ratio.isSome || a.subingredient_default.isSome || a.subingredient_variant.isSome)
    || (a.ratio.isSome && a.subingredient_default.isSome && a.subingredient_variant.isSome)

/-- Lines 136–138: sorted(builder.items(), key = "ratio" in process).  Python
sort is stable and the key is boolean, so the result is exactly the entries
without a ratio followed by the entries with one, each group in dict order. -/
def orderedItems (b : Builder) : Builder :=
  b.filter (fun kv => !kv.2.ratio.isSome) ++ b.filter (fun kv => kv.2.ratio.isSome)

/-- Observable failures of the run: the assert of lines 123–132, and the bare
except at line 173 that invokes the interactive debugger (pdb.set_trace) on
any exception inside the substitution formula; reaching the debugger is
modelled as a terminal error. -/
inductive RunError where
  | assertionFailed : RunError
  | debuggerBreak : RunError
deriving DecidableEq

/-- builder[pid]["impacts"][k], as the complex-ingredient formula reads it. -/
def getImpact (b : Builder) (pid k : String) : Option ℚ :=
  (dget b pid).bind fun p => dget p.impacts k

/-- Lines 159–174: for every indicator of the entity's own impacts dict,
impacts[k] = impacts[k] + ratio * (variant[k] - default[k]), where variant
and default are looked up in the current builder dict; any failed lookup is
the KeyError caught by the bare except. -/
def composeImpacts (b : Builder) (r : ℚ) (dId vId : String) :
    Imp → Except RunError Imp
  | [] => Except.ok []
  | (k, x) :: rest =>
    match getImpact b vId k, getImpact b dId k with
    | some v, some bv =>
      match composeImpacts b r dId vId rest with
      | Except.ok rest2 => Except.ok ((k, x + r * (v - bv)) :: rest2)
      | Except.error e => Except.error e
    | _, _ => Except.error RunError.debuggerBreak

/-- One iteration of the main loop (lines 147–190) on process id pid: fill
the impacts from the engine, then, for a complex ingredient, apply the
substitution formula against the current builder state and drop the complex
attributes.  The name, system_description and identifier rewrites of lines
176–180 touch only unmodelled metadata. -/
def runStep (score : String → String → ℚ) (keys : List String) (b : Builder)
    (pid : String) : Except RunError Builder :=
  match dget b pid with
  | none => Except.ok b
  | some p =>
    let p1 : Proc := { p with impacts := fillImpacts (score p.search) keys p.impacts }
    let b1 := dset b pid p1
    match p1.ratio with
    | some r =>
      match p1.subingredient_default, p1.subingredient_variant with
      | some dId, some vId =>
        match composeImpacts b1 r dId vId p1.impacts with
        | Except.ok imp =>
          Except.ok (dset b1 pid
            { p1 with ratio := none, subingredient_default := none,
                      subingredient_variant := none, impacts := imp })
        | Except.error e => Except.error e
      | _, _ => Except.error RunError.debuggerBreak
    | none => Except.ok b1

/-- The main computation of lines 58–190 up to (and excluding) the corrected
impacts: load, build the builder dict, strip falsy-ratio attributes, check
the complex-attribute assert, then run the loop over the sorted items.  The
impacts dicts this produces are the raw (composed) vectors per process. -/
def runPipeline (score : String → String → ℚ) (keys : List String)
    (acts : List Activity) : Except RunError Builder :=
  if acts.all complexAttrsOk then
    let b := cleanupBuilder (buildBuilder acts)
    ((orderedItems b).map Prod.fst).foldlM (runStep score keys) b
  else Except.error RunError.assertionFailed

/-- Lines 192–203 applied to every process of the builder dict. -/
def correctedBuilder (rules : List (String × List CorrectionItem)) (b : Builder) :
    Builder :=
  b.map fun kv => (kv.1, { kv.2 with impacts := applyCorrections kv.2.impacts rules })

/-- The raw impact the pipeline leaves for process pid at indicator k (none
when the run fails or the lookup does). -/
def pipelineImpact (score : String → String → ℚ) (keys : List String)
    (acts : List Activity) (pid k : String) : Option ℚ :=
  match runPipeline score keys acts with
  | Except.ok b => getImpact b pid k
  | Except.error _ => none

/-- Whether the run reaches the end of the main loop without the assert or
the debugger firing. -/
def runOk (score : String → String → ℚ) (keys : List String)
    (acts : List Activity) : Bool :=
  match runPipeline score keys acts with
  | Except.ok _ => true
  | Except.error _ => false

/-- The ids a complex process reads during substitution. -/
def refsOf (p : Proc) : List String :=
  p.subingredient_default.toList ++ p.subingredient_variant.toList

/-- C8 counterexample: an indicator present in the entity's own vector but
absent from the variant reference's vector drops into the debugger; it is not
defaulted to 0 and the run does not continue. -/
theorem c8_counterexample :
    composeImpacts
        [("d", ⟨"sd", none, none, none, [("co2", 5)]⟩),
         ("v", ⟨"sv", none, none, none, []⟩)] 1 "d" "v" [("co2", 3)]
      = Except.error RunError.debuggerBreak
    ∧ (Except.error RunError.debuggerBreak : Except RunError Imp)
      ≠ Except.ok [("co2", 3 + 1 * (0 - 5))] := by
  exact ⟨rfl, by simp⟩

/-- C8 (amended): when an indicator k of the dict being composed is missing
from the variant reference's impacts, the lookup raises the KeyError that the
bare except turns into a debugger break; there is no default-to-0 path and no
warning, the loop is modelled as failing. -/
theorem c8_missing_variant_breaks (b : Builder) (r : ℚ) (dId vId : String)
    (imp : Imp) (k : String)
    (hk : dmem imp k = true)
    (hv : getImpact b vId k = none) :
    composeImpacts b r dId vId imp = Except.error RunError.debuggerBreak := by
  induction imp with
  | nil => simp [dmem, dget] at hk
  | cons hd rest ih =>
    obtain ⟨k0, x0⟩ := hd
    by_cases hks : k = k0
    · subst hks
      simp [composeImpacts, hv]
    · have hk2 : dmem rest k = true := by
        simpa [dmem, dget, hks] using hk
      cases hv1 : getImpact b vId k0 with
      | none => simp [composeImpacts, hv1]
      | some v =>
        cases hb1 : getImpact b dId k0 with
        | none => simp [composeImpacts, hv1, hb1]
        | some bv => simp [composeImpacts, hv1, hb1, ih hk2]


/-- C8 witness: a concrete state where the variant lacks the indicator. -/
theorem c8_witness :
    composeImpacts
        [("d", ⟨"sd", none, none, none, [("co2", 7)]⟩),
         ("v", ⟨"sv", none, none, none, [("other", 1)]⟩)] 2 "d" "v" [("co2", 4)]
      = Except.error RunError.debuggerBreak :=
  c8_missing_variant_breaks _ 2 "d" "v" _ "co2" (by decide) (by decide)

/-- C1 counterexample: the catalog of end-to-end scenario 1, with the complex
entity's own LCA score 20 at co2.  The pipeline composes
own + ratio * (variant - default) = 20 + 1.2 * (8 - 10) = 17.6, not the
claim's B + ratio * (V - B) = 7.6. -/
def scoreC1 : String → String → ℚ := fun s _ =>
  if s = "w" then 10 else if s = "c" then 8 else 20

def actsC1 : List Activity :=
  [⟨"wheat", "w", none, none, none⟩,
   ⟨"conv", "c", none, none, none⟩,
   ⟨"flour", "f", some (6 / 5), some "wheat", some "conv"⟩]

theorem c1_counterexample :
    pipelineImpact scoreC1 ["co2"] actsC1 "flour" "co2" = some (88 / 5)
    ∧ (88 / 5 : ℚ) ≠ 10 + 6 / 5 * (8 - 10) := by
  with_unfolding_all decide

/-- C1 (amended): for a complex entity the composed raw vector satisfies
composed[k] = P[k] + ratio * (V[k] - B[k]), where P is the entity's own raw
LCA vector, V the variant reference's current vector and B the base
(default) reference's current vector; the spec's B[k] + ratio * (V[k] - B[k])
is obtained only when P[k] = B[k]. -/
theorem c1_substitution_formula (b : Builder) (r : ℚ) (dId vId : String)
    (imp out : Imp) (k : String) (x v bv : ℚ)
    (hok : composeImpacts b r dId vId imp = Except.ok out)
    (hk : dget imp k = some x)
    (hv : getImpact b vId k = some v)
    (hb : getImpact b dId k = some bv) :
    dget out k = some (x + r * (v - bv)) := by
  induction imp generalizing out with
  | nil => simp [dget] at hk
  | cons hd rest ih =>
    obtain ⟨k0, x0⟩ := hd
    by_cases hks : k = k0
    · subst hks
      simp only [dget, if_pos rfl] at hk
      obtain rfl : x0 = x := by exact Option.some.injEq .. ▸ hk
      simp only [composeImpacts, hv, hb] at hok
      cases hrest : composeImpacts b r dId vId rest with
      | error e => rw [hrest] at hok; exact Except.noConfusion hok
      | ok rest2 =>
        rw [hrest] at hok
        injection hok with hout
        subst hout
        simp [dget]
    · simp only [dget, if_neg hks] at hk
      cases hv1 : getImpact b vId k0 with
      | none => simp [composeImpacts, hv1] at hok
      | some v1 =>
        cases hb1 : getImpact b dId k0 with
        | none => simp [composeImpacts, hv1, hb1] at hok
        | some bv1 =>
          simp only [composeImpacts, hv1, hb1] at hok
          cases hrest : composeImpacts b r dId vId rest with
          | error e => rw [hrest] at hok; exact Except.noConfusion hok
          | ok rest2 =>
            rw [hrest] at hok
            injection hok with hout
            subst hout
            simp only [dget, if_neg hks]
            exact ih rest2 hrest hk

/-- C1 witness: base co2 = 10, variant co2 = 8, ratio 1.2, own score 20. -/
theorem c1_witness :
    dget [("co2", (20 : ℚ) + 6 / 5 * (8 - 10))] "co2"
      = some ((20 : ℚ) + 6 / 5 * (8 - 10)) :=
  c1_substitution_formula
    [("wheat", ⟨"w", none, none, none, [("co2", 10)]⟩),
     ("conv", ⟨"c", none, none, none, [("co2", 8)]⟩)]
    (6 / 5) "wheat" "conv" [("co2", 20)] _ "co2" 20 8 10
    (by with_unfolding_all rfl) (by decide) (by decide) (by decide)

theorem dget_fillImpacts (score : String → ℚ) (keys : List String) :
    ∀ (imp : Imp) (s : String),
      dget (fillImpacts score keys imp) s
        = if s ∈ keys then some (score s) else dget imp s := by
  induction keys with
  | nil => intro imp s; simp [fillImpacts]
  | cons k rest ih =>
    intro imp s
    simp only [fillImpacts, List.foldl_cons] at ih ⊢
    rw [ih (dset imp k (score k)) s, dget_dset]
    by_cases hs : s ∈ rest
    · simp [hs, List.mem_cons]
    · by_cases hsk : s = k
      · subst hsk
        simp [hs]
      · simp [hs, hsk, List.mem_cons]

theorem keys_fillImpacts_nodup (score : String → ℚ) (keys : List String) :
    ∀ imp : Imp, (imp.map Prod.fst).Nodup →
      ((fillImpacts score keys imp).map Prod.fst).Nodup := by
  induction keys with
  | nil => intro imp h; exact h
  | cons k rest ih =>
    intro imp h
    simp only [fillImpacts, List.foldl_cons] at ih ⊢
    exact ih (dset imp k (score k)) (keys_dset_nodup imp k (score k) h)

/-- Lookup inside the optional result of compute_impacts. -/
def ciGet (o : Option Imp) (s : String) : Option ℚ :=
  o.bind fun v => dget v s

/-- C4 counterexample: a run of the builder pipeline on one simple entity,
with the four decomposable codes as the whole indicator set.  The raw vector
the pipeline leaves still carries etf-o1 and has no merged etf-o: the
per-process loop of the main program never applies the decomposition step
(compute_impacts is never called there). -/
def scoreC4 : String → String → ℚ := fun _ k => if k = "etf-o1" then 1 else 2

def actsC4 : List Activity := [⟨"p", "sp", none, none, none⟩]

theorem c4_counterexample :
    pipelineImpact scoreC4 ["etf-o1", "etf-o2", "etf1", "etf2"] actsC4 "p" "etf-o1"
      = some 1
    ∧ pipelineImpact scoreC4 ["etf-o1", "etf-o2", "etf1", "etf2"] actsC4 "p" "etf-o"
      = none := by
  with_unfolding_all decide

/-- C4 (amended): the static decomposition table lives in compute_impacts and
does there exactly what the spec says — etf-o1 and etf-o2 are summed into
etf-o, etf1 and etf2 into etf, and the four source codes are removed — but
compute_impacts is not invoked by the builder pipeline, whose per-process
loop leaves the source codes unmerged (see the counterexample). -/
theorem c4_decomposition_in_compute_impacts (score : String → ℚ)
    (keys : List String)
    (h1 : "etf-o1" ∈ keys) (h2 : "etf-o2" ∈ keys)
    (h3 : "etf1" ∈ keys) (h4 : "etf2" ∈ keys) :
    (compute_impacts score keys).isSome = true
    ∧ ciGet (compute_impacts score keys) "etf-o"
        = some (score "etf-o1" + score "etf-o2")
    ∧ ciGet (compute_impacts score keys) "etf"
        = some (score "etf1" + score "etf2")
    ∧ ciGet (compute_impacts score keys) "etf-o1" = none
    ∧ ciGet (compute_impacts score keys) "etf-o2" = none
    ∧ ciGet (compute_impacts score keys) "etf1" = none
    ∧ ciGet (compute_impacts score keys) "etf2" = none := by
  have hm : ∀ s, dget (fillImpacts score keys []) s
      = if s ∈ keys then some (score s) else none := by
    intro s
    rw [dget_fillImpacts]
    rfl
  have hnd : ((fillImpacts score keys []).map Prod.fst).Nodup :=
    keys_fillImpacts_nodup score keys [] (by simp)
  have e1 : dget (fillImpacts score keys []) "etf-o1" = some (score "etf-o1") := by
    rw [hm]; simp [h1]
  have e2 : dget (fillImpacts score keys []) "etf-o2" = some (score "etf-o2") := by
    rw [hm]; simp [h2]
  have hci : compute_impacts score keys
      = some (ddel (ddel (dset
          (ddel (ddel (dset (fillImpacts score keys [])
            "etf-o" (score "etf-o1" + score "etf-o2")) "etf-o1") "etf-o2")
          "etf" (score "etf1" + score "etf2")) "etf1") "etf2") := by
    have e3 : dget (ddel (ddel (dset (fillImpacts score keys [])
        "etf-o" (score "etf-o1" + score "etf-o2")) "etf-o1") "etf-o2") "etf1"
        = some (score "etf1") := by
      rw [dget_ddel_ne _ _ _ (by decide), dget_ddel_ne _ _ _ (by decide),
        dget_dset]
      simp only [if_neg (by decide : ¬ "etf1" = "etf-o")]
      rw [hm]; simp [h3]
    have e4 : dget (ddel (ddel (dset (fillImpacts score keys [])
        "etf-o" (score "etf-o1" + score "etf-o2")) "etf-o1") "etf-o2") "etf2"
        = some (score "etf2") := by
      rw [dget_ddel_ne _ _ _ (by decide), dget_ddel_ne _ _ _ (by decide),
        dget_dset]
      simp only [if_neg (by decide : ¬ "etf2" = "etf-o")]
      rw [hm]; simp [h4]
    simp only [compute_impacts]
    rw [e1, e2]
    simp only []
    rw [e3, e4]
  have hnd2 : ((ddel (ddel (dset (fillImpacts score keys [])
      "etf-o" (score "etf-o1" + score "etf-o2")) "etf-o1") "etf-o2").map
        Prod.fst).Nodup :=
    keys_ddel_nodup _ _ (keys_ddel_nodup _ _ (keys_dset_nodup _ _ _ hnd))
  refine ⟨by rw [hci]; rfl, ?_, ?_, ?_, ?_, ?_, ?_⟩
  · rw [hci]
    show dget _ "etf-o" = _
    rw [dget_ddel_ne _ _ _ (by decide), dget_ddel_ne _ _ _ (by decide),
      dget_dset]
    simp only [if_neg (by decide : ¬ "etf-o" = "etf")]
    rw [dget_ddel_ne _ _ _ (by decide), dget_ddel_ne _ _ _ (by decide),
      dget_dset]
    simp
  · rw [hci]
    show dget _ "etf" = _
    rw [dget_ddel_ne _ _ _ (by decide), dget_ddel_ne _ _ _ (by decide),
      dget_dset]
    simp
  · rw [hci]
    show dget _ "etf-o1" = _
    rw [dget_ddel_ne _ _ _ (by decide), dget_ddel_ne _ _ _ (by decide),
      dget_dset]
    simp only [if_neg (by decide : ¬ "etf-o1" = "etf")]
    rw [dget_ddel_ne _ _ _ (by decide)]
    rw [dget_ddel _ _ _ (keys_dset_nodup _ _ _ hnd)]
    simp
  · rw [hci]
    show dget _ "etf-o2" = _
    rw [dget_ddel_ne _ _ _ (by decide), dget_ddel_ne _ _ _ (by decide),
      dget_dset]
    simp only [if_neg (by decide : ¬ "etf-o2" = "etf")]
    rw [dget_ddel _ _ _ (keys_ddel_nodup _ _ (keys_dset_nodup _ _ _ hnd))]
    simp
  · rw [hci]
    show dget _ "etf1" = _
    rw [dget_ddel_ne _ _ _ (by decide)]
    rw [dget_ddel _ _ _ (keys_dset_nodup _ _ _ hnd2)]
    simp
  · rw [hci]
    show dget _ "etf2" = _
    rw [dget_ddel _ _ _ (keys_ddel_nodup _ _ (keys_dset_nodup _ _ _ hnd2))]
    simp

/-- C4 witness: compute_impacts on the four decomposable codes. -/
theorem c4_witness :
    ciGet (compute_impacts (fun k => if k = "etf-o1" then 1 else 2)
        ["etf-o1", "etf-o2", "etf1", "etf2"]) "etf-o"
      = some ((fun k : String => if k = "etf-o1" then (1 : ℚ) else 2) "etf-o1"
          + (fun k : String => if k = "etf-o1" then (1 : ℚ) else 2) "etf-o2")
    ∧ ciGet (compute_impacts (fun k => if k = "etf-o1" then 1 else 2)
        ["etf-o1", "etf-o2", "etf1", "etf2"]) "etf-o1" = none :=
  ⟨(c4_decomposition_in_compute_impacts _ _ (by decide) (by decide) (by decide)
      (by decide)).2.1,
   (c4_decomposition_in_compute_impacts _ _ (by decide) (by decide) (by decide)
      (by decide)).2.2.2.1⟩

/-- C3 counterexample: an acyclic catalog whose complex entity A references
the complex entity B; every reference resolves inside the catalog, yet the
boolean sort keeps A before B, so the claimed referenced-before-referencing
order is violated (and no CycleDetected or UnresolvedReference error exists:
the failure surfaces later as the debugger break of the substitution loop). -/
def builderC3x : Builder :=
  [("A", ⟨"sa", some 2, some "B", some "B", []⟩),
   ("B", ⟨"sb", some 3, some "C", some "C", []⟩),
   ("C", ⟨"sc", none, none, none, []⟩)]

theorem c3_counterexample :
    dget builderC3x "A" = some ⟨"sa", some 2, some "B", some "B", []⟩
    ∧ "B" ∈ builderC3x.map Prod.fst
    ∧ "C" ∈ builderC3x.map Prod.fst
    ∧ (orderedItems builderC3x).map Prod.fst = ["C", "A", "B"]
    ∧ ¬ ((orderedItems builderC3x).map Prod.fst).indexOf "B"
        < ((orderedItems builderC3x).map Prod.fst).indexOf "A" := by
  with_unfolding_all decide

/-- C3 (amended): the resolver of the source is the stable boolean sort of
lines 136–138, with no cycle or unresolved-reference detection (both fault
classes surface as the single debugger-break failure of the substitution
loop).  The referenced-before-referencing order does hold in the case the
catalog exercises — every complex entity referencing only non-complex
catalog entries: each complex entry lands in the suffix of the sorted items
and all of its references land in the preceding prefix. -/
theorem c3_two_tier_order (b : Builder)
    (href : ∀ kv ∈ b, kv.2.ratio.isSome = true →
      ∀ rid ∈ refsOf kv.2, ∃ q ∈ b, q.1 = rid ∧ q.2.ratio.isSome = false) :
    ∀ kv ∈ b, kv.2.ratio.isSome = true →
      kv ∈ (orderedItems b).drop ((b.filter fun x => !x.2.ratio.isSome).length)
      ∧ ∀ rid ∈ refsOf kv.2,
          rid ∈ ((orderedItems b).take
            ((b.filter fun x => !x.2.ratio.isSome).length)).map Prod.fst := by
  intro kv hkv hcplx
  constructor
  · rw [orderedItems, List.drop_left]
    exact List.mem_filter.mpr ⟨hkv, by simp [hcplx]⟩
  · intro rid hrid
    obtain ⟨q, hq, hqid, hqsimple⟩ := href kv hkv hcplx rid hrid
    rw [orderedItems, List.take_left]
    exact List.mem_map.mpr ⟨q, List.mem_filter.mpr ⟨hq, by simp [hqsimple]⟩, hqid⟩

/-- C3 witness: a catalog with one complex entity referencing two simple
ones; the complex entry is in the suffix and its base reference is a key of
the prefix. -/
def builderC3w : Builder :=
  [("wheat", ⟨"w", none, none, none, []⟩),
   ("conv", ⟨"c", none, none, none, []⟩),
   ("flour", ⟨"f", some 2, some "wheat", some "conv", []⟩)]

theorem c3_witness :
    ("flour", (⟨"f", some 2, some "wheat", some "conv", []⟩ : Proc))
      ∈ (orderedItems builderC3w).drop
        ((builderC3w.filter fun x => !x.2.ratio.isSome).length)
    ∧ "wheat" ∈ ((orderedItems builderC3w).take
        ((builderC3w.filter fun x => !x.2.ratio.isSome).length)).map Prod.fst := by
  have h := c3_two_tier_order builderC3w (by with_unfolding_all decide)
    ("flour", ⟨"f", some 2, some "wheat", some "conv", []⟩)
    (by with_unfolding_all decide) (by decide)
  exact ⟨h.1, h.2 "wheat" (by decide)⟩

/-- C9 counterexample: two records sharing the id x do not fail at load time:
the dict comprehension keeps the later record silently and the run completes,
against the claimed duplicate-id load failure. -/
def actsC9 : List Activity :=
  [⟨"x", "s1", none, none, none⟩, ⟨"x", "s2", none, none, none⟩]

theorem c9_counterexample :
    runOk (fun _ _ => 3) ["co2"] actsC9 = true
    ∧ actsC9.map Activity.id = ["x", "x"]
    ∧ pipelineImpact (fun _ _ => 3) ["co2"] actsC9 "x" "co2" = some 3 := by
  with_unfolding_all decide

/-- C9 (amended): of the two malformed-record classes the claim lists, only
the partial complex-attribute one fails before impact computation (the assert
of lines 116–132 aborts the run); duplicate ids never fail — in the builder
dict comprehension the last record with a given id silently wins. -/
theorem c9_load_time_checks (acts : List Activity) (a : Activity) :
    ((∃ x ∈ acts, complexAttrsOk x = false) →
      ∀ score keys, runPipeline score keys acts = Except.error RunError.assertionFailed)
    ∧ dget (buildBuilder (acts ++ [a])) a.id
        = some ⟨a.search, a.ratio, a.subingredient_default,
            a.subingredient_variant, []⟩ := by
  constructor
  · rintro ⟨x, hx, hxf⟩ score keys
    have hall : acts.all complexAttrsOk = false := by
      by_cases h : acts.all complexAttrsOk
      · have := List.all_eq_true.mp h x hx
        rw [hxf] at this
        exact absurd this (by simp)
      · simpa using h
    simp [runPipeline, hall]
  · have hstep : buildBuilder (acts ++ [a])
        = dset (buildBuilder acts) a.id
            ⟨a.search, a.ratio, a.subingredient_default,
              a.subingredient_variant, []⟩ := by
      simp [buildBuilder, List.foldl_append]
    rw [hstep, dget_dset]
    simp

/-- C9 witness: a record with a ratio but no subingredients aborts the run
with the assertion, and a later duplicate record is the one the builder dict
retains. -/
theorem c9_witness :
    runPipeline (fun _ _ => 0) ["co2"] [⟨"bad", "sb", some 1, none, none⟩]
      = Except.error RunError.assertionFailed
    ∧ dget (buildBuilder ([⟨"bad", "sb", some 1, none, none⟩]
        ++ [⟨"dup", "s2", none, none, none⟩])) "dup"
      = some ⟨"s2", none, none, none, []⟩ := by
  have h := c9_load_time_checks [⟨"bad", "sb", some 1, none, none⟩]
    ⟨"dup", "s2", none, none, none⟩
  exact ⟨h.1 (by with_unfolding_all decide) (fun _ _ => 0) ["co2"], h.2⟩

/-- One loop iteration only rewrites its own builder entry. -/
theorem runStep_preserves_other (score : String → String → ℚ) (keys : List String)
    (b : Builder) (pid : String) (b2 : Builder)
    (h : runStep score keys b pid = Except.ok b2) :
    ∀ s, ¬ s = pid → dget b2 s = dget b s := by
  intro s hs
  unfold runStep at h
  dsimp only at h
  repeat' split at h
  all_goals
    first
      | exact Except.noConfusion h
      | (injection h with h2
         subst h2
         simp [dget_dset, hs])

/-- Steps over other ids leave an entry untouched. -/
theorem foldlM_preserves_other (score : String → String → ℚ) (keys : List String) :
    ∀ (pids : List String) (b out : Builder) (s : String),
      s ∉ pids → List.foldlM (runStep score keys) b pids = Except.ok out →
      dget out s = dget b s := by
  intro pids
  induction pids with
  | nil =>
    intro b out s _ h
    injection h with h2
    subst h2
    rfl
  | cons q rest ih =>
    intro b out s hs h
    simp only [List.foldlM_cons] at h
    simp only [List.mem_cons, not_or] at hs
    cases hq : runStep score keys b q with
    | error e =>
      rw [hq] at h
      exact Except.noConfusion h
    | ok b2 =>
      rw [hq] at h
      have h2 : List.foldlM (runStep score keys) b2 rest = Except.ok out := h
      rw [ih b2 out s hs.2 h2]
      exact runStep_preserves_other score keys b q b2 hq s hs.1

/-- An entry without a ratio, processed once in the loop, ends with its own
filled LCA vector and is never composed. -/
theorem foldlM_simple_result (score : String → String → ℚ) (keys : List String) :
    ∀ (pids : List String) (b out : Builder) (s : String) (p : Proc),
      pids.Nodup → s ∈ pids → dget b s = some p → p.ratio = none →
      List.foldlM (runStep score keys) b pids = Except.ok out →
      dget out s
        = some { p with impacts := fillImpacts (score p.search) keys p.impacts } := by
  intro pids
  induction pids with
  | nil =>
    intro b out s p _ hmem _ _ _
    simp at hmem
  | cons q rest ih =>
    intro b out s p hnd hmem hb hr h
    simp only [List.foldlM_cons] at h
    rw [List.nodup_cons] at hnd
    rcases List.mem_cons.mp hmem with heq | hmem2
    · subst heq
      have hstep : runStep score keys b s
          = Except.ok (dset b s
              { p with impacts := fillImpacts (score p.search) keys p.impacts }) := by
        unfold runStep
        rw [hb]
        simp only [hr]
      rw [hstep] at h
      have h2 : List.foldlM (runStep score keys)
          (dset b s { p with impacts := fillImpacts (score p.search) keys p.impacts })
          rest = Except.ok out := h
      rw [foldlM_preserves_other score keys rest _ out s hnd.1 h2]
      rw [dget_dset]
      simp
    · have hqs : ¬ s = q := fun he => hnd.1 (he ▸ hmem2)
      cases hq : runStep score keys b q with
      | error e =>
        rw [hq] at h
        exact Except.noConfusion h
      | ok b2 =>
        rw [hq] at h
        have h2 : List.foldlM (runStep score keys) b2 rest = Except.ok out := h
        refine ih b2 out s p hnd.2 hmem2 ?_ hr h2
        rw [runStep_preserves_other score keys b q b2 hq s hqs]
        exact hb

/-- The builder fold never touches ids that no activity carries. -/
theorem dget_buildFold_not_mem :
    ∀ (acts : List Activity) (b : Builder) (s : String),
      (∀ x ∈ acts, ¬ x.id = s) →
      dget (acts.foldl (fun b2 x => dset b2 x.id
        ⟨x.search, x.ratio, x.subingredient_default, x.subingredient_variant, []⟩) b) s
        = dget b s := by
  intro acts
  induction acts with
  | nil => intro b s _; rfl
  | cons x rest ih =>
    intro b s hs
    simp only [List.foldl_cons]
    rw [ih _ s (fun y hy => hs y (List.mem_cons_of_mem x hy))]
    rw [dget_dset]
    have : ¬ s = x.id := fun he => hs x (List.mem_cons_self x rest) he.symm
    rw [if_neg this]

/-- When every record carrying a.id is the record a itself, the builder dict
binds a.id to a's process. -/
theorem dget_buildFold (a : Activity) :
    ∀ (acts : List Activity) (b : Builder), a ∈ acts →
      (∀ x ∈ acts, x.id = a.id → x = a) →
      dget (acts.foldl (fun b2 x => dset b2 x.id
        ⟨x.search, x.ratio, x.subingredient_default, x.subingredient_variant, []⟩) b)
        a.id
        = some ⟨a.search, a.ratio, a.subingredient_default,
            a.subingredient_variant, []⟩ := by
  intro acts
  induction acts with
  | nil => intro b hmem _; simp at hmem
  | cons x rest ih =>
    intro b hmem huniq
    simp only [List.foldl_cons]
    by_cases hmem2 : a ∈ rest
    · exact ih _ hmem2 (fun y hy => huniq y (List.mem_cons_of_mem x hy))
    · have hax : a = x := by
        rcases List.mem_cons.mp hmem with h | h
        · exact h
        · exact absurd h hmem2
      subst hax
      have hrest : ∀ y ∈ rest, ¬ y.id = a.id := by
        intro y hy he
        exact hmem2 (huniq y (List.mem_cons_of_mem a hy) he ▸ hy)
      rw [dget_buildFold_not_mem rest _ a.id hrest, dget_dset]
      simp

theorem dget_cleanupBuilder (b : Builder) (s : String) :
    dget (cleanupBuilder b) s = (dget b s).map stripSimple := by
  induction b with
  | nil => rfl
  | cons hd tl ih =>
    obtain ⟨k0, v0⟩ := hd
    by_cases hs : s = k0
    · simp [cleanupBuilder, dget, hs]
    · simp only [cleanupBuilder, List.map_cons, dget, if_neg hs]
      exact ih

theorem buildFold_keys_nodup :
    ∀ (acts : List Activity) (b : Builder), (b.map Prod.fst).Nodup →
      ((acts.foldl (fun b2 x => dset b2 x.id
        ⟨x.search, x.ratio, x.subingredient_default, x.subingredient_variant, []⟩) b).map
          Prod.fst).Nodup := by
  intro acts
  induction acts with
  | nil => intro b h; exact h
  | cons x rest ih =>
    intro b h
    simp only [List.foldl_cons]
    exact ih _ (keys_dset_nodup b x.id _ h)

theorem keys_cleanupBuilder (b : Builder) :
    (cleanupBuilder b).map Prod.fst = b.map Prod.fst := by
  simp [cleanupBuilder, List.map_map, Function.comp]

/-- Two entries of a dict with distinct keys and the same key are the same
entry. -/
theorem eq_of_mem_keys_nodup {α : Type} :
    ∀ (d : Dict α), (d.map Prod.fst).Nodup →
      ∀ e1 ∈ d, ∀ e2 ∈ d, e1.1 = e2.1 → e1 = e2 := by
  intro d
  induction d with
  | nil => intro _ e1 h1; simp at h1
  | cons hd tl ih =>
    intro hnd e1 h1 e2 h2 heq
    simp only [List.map_cons, List.nodup_cons] at hnd
    rcases List.mem_cons.mp h1 with h1 | h1 <;>
      rcases List.mem_cons.mp h2 with h2 | h2
    · rw [h1, h2]
    · exfalso
      apply hnd.1
      have hmm : e2.1 ∈ List.map Prod.fst tl := List.mem_map_of_mem Prod.fst h2
      rw [← heq, h1] at hmm
      exact hmm
    · exfalso
      apply hnd.1
      have hmm : e1.1 ∈ List.map Prod.fst tl := List.mem_map_of_mem Prod.fst h1
      rw [heq, h2] at hmm
      exact hmm
    · exact ih hnd.2 e1 h1 e2 h2 heq

theorem keys_orderedItems_nodup (b : Builder)
    (h : (b.map Prod.fst).Nodup) : ((orderedItems b).map Prod.fst).Nodup := by
  rw [orderedItems, List.map_append, List.nodup_append]
  refine ⟨h.sublist ((List.filter_sublist b).map Prod.fst),
    h.sublist ((List.filter_sublist b).map Prod.fst), ?_⟩
  intro x hx1 hx2
  obtain ⟨e1, he1, he1x⟩ := List.mem_map.mp hx1
  obtain ⟨e2, he2, he2x⟩ := List.mem_map.mp hx2
  obtain ⟨he1b, he1p⟩ := List.mem_filter.mp he1
  obtain ⟨he2b, he2p⟩ := List.mem_filter.mp he2
  have heq : e1 = e2 :=
    eq_of_mem_keys_nodup b h e1 he1b e2 he2b (he1x.trans he2x.symm)
  rw [heq] at he1p
  simp at he1p he2p
  rw [he1p] at he2p
  simp at he2p

/-- C5 counterexample: a complex record with ratio 0 over a base whose co2
impact is 10; the entity's own LCA score is 20.  The pipeline answers 20,
the entity's own vector, not the base's 10: the falsy-ratio cleanup of
lines 108–113 removed the complex attributes before composition. -/
def scoreC5 : String → String → ℚ := fun s _ => if s = "w" then 10 else 20

def actsC5 : List Activity :=
  [⟨"wheat", "w", none, none, none⟩,
   ⟨"flour", "f", some 0, some "wheat", some "wheat"⟩]

theorem c5_counterexample :
    pipelineImpact scoreC5 ["co2"] actsC5 "flour" "co2" = some 20
    ∧ pipelineImpact scoreC5 ["co2"] actsC5 "wheat" "co2" = some 10
    ∧ (20 : ℚ) ≠ 10 := by
  with_unfolding_all decide

/-- C5 (amended): for a complex record with ratio = 0 the falsy-ratio cleanup
removes ratio and both subingredient attributes, so the entity is processed
as a simple one: its composed vector is its own filled LCA vector (in
general different from the base entity's vector, see the counterexample). -/
theorem c5_ratio_zero_is_own_lca (score : String → String → ℚ)
    (keys : List String) (acts : List Activity) (a : Activity) (out : Builder)
    (ha : a ∈ acts)
    (huniq : ∀ x ∈ acts, x.id = a.id → x = a)
    (hz : a.ratio = some 0)
    (hok : runPipeline score keys acts = Except.ok out) :
    dget out a.id
      = some ⟨a.search, none, none, none, fillImpacts (score a.search) keys []⟩ := by
  unfold runPipeline at hok
  by_cases hall : acts.all complexAttrsOk
  · rw [if_pos hall] at hok
    have hbuild : dget (buildBuilder acts) a.id
        = some ⟨a.search, a.ratio, a.subingredient_default,
            a.subingredient_variant, []⟩ :=
      dget_buildFold a acts [] ha huniq
    have hstrip : stripSimple ⟨a.search, a.ratio, a.subingredient_default,
        a.subingredient_variant, []⟩ = ⟨a.search, none, none, none, []⟩ := by
      simp [stripSimple, falsyRatio, hz]
    have hbc : dget (cleanupBuilder (buildBuilder acts)) a.id
        = some (⟨a.search, none, none, none, []⟩ : Proc) := by
      rw [dget_cleanupBuilder, hbuild]
      simp [hstrip]
    have hnd0 : ((buildBuilder acts).map Prod.fst).Nodup :=
      buildFold_keys_nodup acts [] (by simp)
    have hndc : ((cleanupBuilder (buildBuilder acts)).map Prod.fst).Nodup := by
      rw [keys_cleanupBuilder]
      exact hnd0
    have hndo : (((orderedItems (cleanupBuilder (buildBuilder acts))).map
        Prod.fst)).Nodup := keys_orderedItems_nodup _ hndc
    have hmemo : a.id ∈ (orderedItems (cleanupBuilder (buildBuilder acts))).map
        Prod.fst := by
      have hment : (a.id, (⟨a.search, none, none, none, []⟩ : Proc))
          ∈ orderedItems (cleanupBuilder (buildBuilder acts)) := by
        rw [orderedItems]
        refine List.mem_append_left _ (List.mem_filter.mpr ⟨?_, by simp⟩)
        exact dget_mem _ _ _ hbc
      exact List.mem_map_of_mem Prod.fst hment
    have hres := foldlM_simple_result score keys
      ((orderedItems (cleanupBuilder (buildBuilder acts))).map Prod.fst)
      (cleanupBuilder (buildBuilder acts)) out a.id
      ⟨a.search, none, none, none, []⟩ hndo hmemo hbc rfl hok
    simpa using hres
  · rw [if_neg hall] at hok
    exact Except.noConfusion hok

/-- C5 witness: the counterexample catalog, where the flour entry ends with
its own filled vector. -/
def outC5 : Builder :=
  match runPipeline scoreC5 ["co2"] actsC5 with
  | Except.ok b => b
  | Except.error _ => []

theorem c5_witness :
    dget outC5 "flour"
      = some ⟨"f", none, none, none, fillImpacts (scoreC5 "f") ["co2"] []⟩ :=
  c5_ratio_zero_is_own_lca scoreC5 ["co2"] actsC5
    ⟨"flour", "f", some 0, some "wheat", some "wheat"⟩ outC5
    (by with_unfolding_all decide) (by with_unfolding_all decide) rfl
    (by with_unfolding_all rfl)

end ExportBuilder
